import Mathlib

/-!
Verification development for the autodE complex / transition-state-guess core
(`autode/complex.py` and `autode/transition_states/ts_guess.py`).

Geometry is embedded over exact rationals: coordinates are `ℚ`-triples and the
Euclidean comparisons of the source (`np.min(distance_matrix(...)) > 2.0`,
`distance ** -4`) are expressed through squared distances, which is an exact
reformulation (`d > 2 ↔ d² > 4` for nonnegative `d`).  Rotations by an angle θ
are represented by the exact pair `(c, s) = (cos θ, sin θ)` subject to
`c² + s² = 1`, so that every definition stays computable; rotating by `-θ`
corresponds to the pair `(c, -s)`.

Fallible operations (Python `assert`, `IndexError`, the `requires_atoms`
precondition decorator) are embedded as `Option`-returning functions, `none`
standing for the raised exception.
-/

namespace AutodE

/-- A 3-vector of exact rational coordinates (embedding of a numpy length-3
array of floats). -/
@[ext]
structure Point where
  x : ℚ
  y : ℚ
  z : ℚ
deriving DecidableEq, Repr

namespace Point

def add (p q : Point) : Point := ⟨p.x + q.x, p.y + q.y, p.z + q.z⟩

def neg (p : Point) : Point := ⟨-p.x, -p.y, -p.z⟩

def smul (a : ℚ) (p : Point) : Point := ⟨a * p.x, a * p.y, a * p.z⟩

def dot (p q : Point) : ℚ := p.x * q.x + p.y * q.y + p.z * q.z

def cross (p q : Point) : Point :=
  ⟨p.y * q.z - p.z * q.y, p.z * q.x - p.x * q.z, p.x * q.y - p.y * q.x⟩

/-- Squared Euclidean distance between two points (exact stand-in for the
`scipy.spatial.distance_matrix` entries, squared). -/
def sqDist (p q : Point) : ℚ :=
  (p.x - q.x) ^ 2 + (p.y - q.y) ^ 2 + (p.z - q.z) ^ 2

def zero : Point := ⟨0, 0, 0⟩

end Point

/-- Modelled from the spec: `Atom` is an external data class ("position
(3-vector), element; mutable in place via translate/rotate").  Mutation is
embedded functionally. -/
structure Atom where
  element : String
  coord : Point
deriving DecidableEq, Repr

namespace Atom

/-- Modelled from the spec: the external `Atom.translate` primitive, shifting
the position by a vector. -/
def translate (a : Atom) (vec : Point) : Atom :=
  { a with coord := a.coord.add vec }

/-- Modelled from the spec: the external `Atom.rotate` primitive (rotation of
the position by an angle about an axis through the origin).  The axis `k` is
assumed normalised and the angle is given through its exact cosine `c` and
sine `s`; the formula is the Rodrigues rotation
`p ↦ c·p + s·(k×p) + (1-c)(k·p)·k`. -/
def rotate (a : Atom) (k : Point) (c s : ℚ) : Atom :=
  let p :=
    ((Point.smul c a.coord).add (Point.smul s (k.cross a.coord))).add
      (Point.smul ((1 - c) * k.dot a.coord) k)
  { a with coord := p }

end Atom

/-- A molecule as the Complex code consumes it: an ordered atom list, integer
charge and spin multiplicity, and a solvent identifier (the molecular graph is
an external collaborator and is not needed by any operation verified here). -/
structure Molecule where
  atoms : List Atom
  charge : ℤ
  mult : ℤ
  solvent : String
deriving DecidableEq, Repr

namespace Molecule

/-- `mol.n_atoms` -/
def n_atoms (m : Molecule) : ℕ := m.atoms.length

/-- `np.average(mol.get_coordinates(), axis=0)`: the centroid of the atom
positions. -/
def centroid (m : Molecule) : Point :=
  Point.smul (1 / (m.atoms.length : ℚ))
    (m.atoms.foldr (fun a acc => a.coord.add acc) Point.zero)

end Molecule

/-- A conformer as created in `Complex._generate_conformers`: a named
charge/multiplicity-tagged snapshot of atom geometry. -/
structure Conformer where
  name : String
  atoms : List Atom
  charge : ℤ
  mult : ℤ
deriving DecidableEq, Repr

/-- The `Complex` data model (`autode/complex.py`).  `atoms` is the combined
atom sequence, deep-copied and concatenated from `molecules` at construction
time (value semantics make the deep copies implicit here). -/
structure Complexe where
  name : String
  molecules : List Molecule
  atoms : List Atom
  charge : ℤ
  mult : ℤ
  solvent : String
  conformers : List Conformer
deriving DecidableEq, Repr

/-- `Complex.__init__`: combined charge is the sum of molecule charges,
combined multiplicity is `Σ mult − (k − 1)`, atoms are the concatenation of
(deep copies of) each molecule's atoms, solvent is the first molecule's
solvent.  An empty molecule list raises (`self.molecules[0].solvent` is an
`IndexError`), embedded as `none`. -/
def mkComplex (mols : List Molecule) (name : String) : Option Complexe :=
  match mols with
  | [] => none
  | m0 :: _ =>
      some
        { name := name
          molecules := mols
          atoms := mols.foldr (fun m acc => m.atoms ++ acc) []
          charge := (mols.map Molecule.charge).sum
          mult := (mols.map Molecule.mult).sum - ((mols.length : ℤ) - 1)
          solvent := m0.solvent
          conformers := [] }

namespace Complexe

/-- `first_index` in `Complex.get_atom_indexes`: the number of atoms in the
molecules preceding `mol_index`. -/
def firstIndex (c : Complexe) (mol_index : ℕ) : ℕ :=
  ((c.molecules.take mol_index).map Molecule.n_atoms).sum

/-- `Complex.get_atom_indexes(mol_index)`: the contiguous list
`range(first_index, last_index)`; the leading `assert mol_index <
len(self.molecules)` is embedded as the `none` branch. -/
def get_atom_indexes (c : Complexe) (mol_index : ℕ) : Option (List ℕ) :=
  if mol_index < c.molecules.length then
    some (List.range' (c.firstIndex mol_index)
      (c.firstIndex (mol_index + 1) - c.firstIndex mol_index))
  else none

end Complexe

/-- Apply `f` to the elements of `l` whose (0-based, offset by `start`) index
lies in `idxs`, leaving every other element unchanged — the embedding of the
Python loop `for atom_index in idxs: atoms[atom_index] |= f`. -/
def applyAtIdxs (idxs : List ℕ) (f : Atom → Atom) : ℕ → List Atom → List Atom
  | _, [] => []
  | start, a :: as =>
      (if start ∈ idxs then f a else a) :: applyAtIdxs idxs f (start + 1) as

namespace Complexe

/-- `Complex.translate_mol(vec, mol_index)`: translate every atom of molecule
`mol_index` by `vec`.  The `@requires_atoms()` decorator (modelled from the
spec: "Both require the complex to already have atoms populated") and the
index assertion are the `none` cases. -/
def translate_mol (c : Complexe) (vec : Point) (mol_index : ℕ) :
    Option Complexe :=
  if c.atoms = [] then none
  else
    (c.get_atom_indexes mol_index).map fun idxs =>
      { c with atoms := applyAtIdxs idxs (fun a => a.translate vec) 0 c.atoms }

/-- `Complex.rotate_mol(axis, theta, mol_index, origin)`: for every atom of
molecule `mol_index`, translate by `-origin`, rotate about `axis` by the angle
with cosine `c` and sine `s`, translate back by `origin`.  Preconditions as in
`translate_mol`. -/
def rotate_mol (cx : Complexe) (axis : Point) (c s : ℚ) (mol_index : ℕ)
    (origin : Point) : Option Complexe :=
  if cx.atoms = [] then none
  else
    (cx.get_atom_indexes mol_index).map fun idxs =>
      let f := fun a : Atom =>
        ((a.translate origin.neg).rotate axis c s).translate origin
      { cx with atoms := applyAtIdxs idxs f 0 cx.atoms }

/-- `Complex.calc_repulsion(mol_index)`: `0.5 × Σ r⁻⁴` over all pairs of one
atom in molecule `mol_index` and one outside it, embedded exactly as
`0.5 × Σ (r²)⁻²` over squared distances.  Preconditions as in
`translate_mol`. -/
def calc_repulsion (c : Complexe) (mol_index : ℕ) : Option ℚ :=
  if c.atoms = [] then none
  else
    (c.get_atom_indexes mol_index).map fun idxs =>
      let coordinates := c.atoms.map Atom.coord
      let mol_coords := idxs.map fun i => coordinates.getD i Point.zero
      let other_coords :=
        ((List.range c.atoms.length).filter (fun i => i ∉ idxs)).map
          fun i => coordinates.getD i Point.zero
      (1 / 2) *
        (mol_coords.map fun p =>
            (other_coords.map fun q => (Point.sqDist p q)⁻¹ ^ 2).sum).sum

end Complexe

/-- `np.min` over a list of rationals; the empty case (an error in numpy) is
mapped to `0`, which never satisfies the `> 4` separation test, so an empty
distance matrix can never let the shift loop succeed. -/
def listMin : List ℚ → ℚ
  | [] => 0
  | [q] => q
  | q :: r :: rest => min q (listMin (r :: rest))

/-- `np.max`-style fold used only in proofs to bound all pairwise squared
distances at once. -/
def listMax : List ℚ → ℚ
  | [] => 0
  | q :: rest => max q (listMax rest)

/-- The entries of `distance_matrix(first_mol_coords, mol_coords)`, squared:
one squared distance per (static atom, moving atom) pair. -/
def pairSqDists (fixedCoords movingCoords : List Point) : List ℚ :=
  fixedCoords.flatMap fun p => movingCoords.map fun q => Point.sqDist p q

/-- The loop guard of `_generate_conformers`:
`np.min(distance_matrix(first_mol_coords, mol_coords)) > 2.0`, in exact
squared form (`> 4`). -/
def farEnoughApart (fixedCoords : List Point) (atoms : List Atom) : Prop :=
  4 < listMin (pairSqDists fixedCoords (atoms.map Atom.coord))

instance (fixedCoords : List Point) (atoms : List Atom) :
    Decidable (farEnoughApart fixedCoords atoms) := by
  unfold farEnoughApart; infer_instance

/-- The `while not far_enough_apart` loop of `_generate_conformers`: shift
every atom of the moving molecule by `0.1 · point`, stop as soon as the
minimum pairwise distance to the static molecule exceeds 2.0 Å.  The source
loop is unbounded; it is embedded with an explicit fuel, `none` standing for
non-termination within the allotted fuel. -/
def shiftLoop (fixedCoords : List Point) (point : Point) :
    ℕ → List Atom → Option (List Atom)
  | 0, _ => none
  | fuel + 1, atoms =>
      let shifted := atoms.map fun a => a.translate (Point.smul (1 / 10) point)
      if farEnoughApart fixedCoords shifted then some shifted
      else shiftLoop fixedCoords point fuel shifted

/-- The state of the moving molecule after `j` iterations of the shift loop:
every atom translated by `(j/10) · point`.  Proof-side closed form. -/
def shiftedBy (point : Point) (j : ℕ) (atoms : List Atom) : List Atom :=
  atoms.map fun a => a.translate (Point.smul ((j : ℚ) / 10) point)

/-- One random draw of `_generate_conformers`:
`theta, axis = np.random.uniform(0, 2π), np.random.uniform(-1, 1, size=3)`,
with the angle carried as its exact cosine/sine pair.  The draws are inputs of
the embedded generator, which is otherwise deterministic. -/
structure RandomRotation where
  c : ℚ
  s : ℚ
  axis : Point
deriving DecidableEq, Repr

/-- The static frame of `_generate_conformers`: a deep copy of the first
molecule's atoms with the centroid subtracted
(`atom.coord -= fist_mol_centroid`). -/
def centeredFirstAtoms (m1 : Molecule) : List Atom :=
  m1.atoms.map fun a => a.translate m1.centroid.neg

/-- The moving molecule after one random draw: a deep copy of the second
molecule's atoms, shifted to put its centroid at the origin and rotated by the
draw (`atom.translate(vec=-mol_centroid); atom.rotate(axis, theta)`). -/
def rotatedSecond (m2 : Molecule) (r : RandomRotation) : List Atom :=
  m2.atoms.map fun a => (a.translate m2.centroid.neg).rotate r.axis r.c r.s

/-- Collect a list of optional values, failing if any entry failed. -/
def seqOptions {α : Type} : List (Option α) → Option (List α)
  | [] => some []
  | o :: os => o.bind fun a => (seqOptions os).map fun as => a :: as

/-- Map with a running counter, starting at `n` — the embedding of the `n`
counter that numbers conformers `_conf0, _conf1, …` in creation order. -/
def mapWithIdx {α β : Type} (f : ℕ → α → β) : ℕ → List α → List β
  | _, [] => []
  | n, a :: as => f n a :: mapWithIdx f (n + 1) as

namespace Complexe

/-- `Complex._generate_conformers`: reset `self.conformers` to the empty
list, fix the centred first molecule as the static frame, and for every
random rotation of the centred second molecule and every sphere point, shift
the rotated molecule outward in 0.1 Å steps until the 2.0 Å separation test
passes, recording one conformer per (rotation, sphere point) pair, named
`{name}_conf{n}` with `n` counting conformers from 0 in creation order.
The random draws and the `get_points_on_sphere` output are inputs (both are
external sources of values); the unbounded shift loop carries a fuel, and a
complex with fewer than two molecules hits `self.molecules[1]`
(`IndexError`), embedded as `none`. -/
def generate_conformers (cx : Complexe) (rotations : List RandomRotation)
    (spherePoints : List Point) (fuel : ℕ) : Option Complexe :=
  match cx.molecules with
  | m1 :: m2 :: _ =>
      let firstAtoms := centeredFirstAtoms m1
      let firstCoords := firstAtoms.map Atom.coord
      let shifts :=
        rotations.flatMap fun r =>
          spherePoints.map fun point =>
            shiftLoop firstCoords point fuel (rotatedSecond m2 r)
      (seqOptions shifts).map fun atomLists =>
        let confs := mapWithIdx
          (fun n ats =>
            Conformer.mk (cx.name ++ "_conf" ++ toString n) (firstAtoms ++ ats)
              cx.charge cx.mult)
          0 atomLists
        { cx with conformers := confs }
  | _ => none

end Complexe

/-! ## Transition-state guess generation (`ts_guess.py`) -/

/-- Association-list lookup (`d[k]`, with `none` for a `KeyError`). -/
def findVal {κ ν : Type} [DecidableEq κ] : List (κ × ν) → κ → Option ν
  | [], _ => none
  | e :: rest, k => if e.1 = k then some e.2 else findVal rest k

/-- A stored TS template as the scan consumes it.  The template's graph is an
external collaborator; what `get_template_ts_guess` reads from the external
calls is bundled per template: `matches` is the value of
`template_matches(reactant, ts_template, truncated_graph)`, `mapping` the
node mapping returned by `get_mapping_ts_template`, and `edges` the stored
`'distance'` attribute of each template edge. -/
structure TSTemplate where
  isMatch : Bool
  mapping : List (ℕ × ℕ)
  edges : List ((ℕ × ℕ) × ℚ)
deriving DecidableEq, Repr

/-- `mapping[i]` (`none` for a `KeyError`). -/
def TSTemplate.mapNode (t : TSTemplate) (i : ℕ) : Option ℕ :=
  findVal t.mapping i

/-- `ts_template.graph.edges[u, v]['distance']`: the stored distance of an
edge of the template graph; the graph is undirected, so the lookup ignores
the orientation of the pair.  `none` for a `KeyError`. -/
def TSTemplate.edgeDistance (t : TSTemplate) (u v : ℕ) : Option ℚ :=
  match findVal t.edges (u, v) with
  | some d => some d
  | none => findVal t.edges (v, u)

/-- The body of the `try`:
`ts_template.graph.edges[mapping[i], mapping[j]]['distance']`; a `KeyError`
from `mapping[i]`, from `mapping[j]` or from the edge lookup is the `none`
case (caught and logged as a warning in the source). -/
def TSTemplate.bondDistance (t : TSTemplate) (bond : ℕ × ℕ) : Option ℚ :=
  (t.mapNode bond.1).bind fun mi =>
    (t.mapNode bond.2).bind fun mj => t.edgeDistance mi mj

/-- The `active_bonds_and_dists_ts` dictionary: an insertion-ordered
association list from active bonds to distances. -/
abbrev BondDict : Type := List ((ℕ × ℕ) × ℚ)

/-- `d[k] = v` on a Python dict: overwrite in place if the key exists,
append otherwise. -/
def dictInsert (d : BondDict) (k : ℕ × ℕ) (v : ℚ) : BondDict :=
  if (findVal d k).isSome then
    d.map fun e => if e.1 = k then (k, v) else e
  else d ++ [(k, v)]

/-- The inner `for active_bond in bond_rearrangement.all` loop: try to read
the template's stored distance for each active bond, storing it in the
dictionary on success and skipping the bond (with a logged warning) on a
`KeyError`.  The dictionary is threaded through: it is *not* reset between
templates in the source. -/
def accumulateBondDists (t : TSTemplate) (bonds : List (ℕ × ℕ))
    (d : BondDict) : BondDict :=
  bonds.foldl
    (fun d bond =>
      match t.bondDistance bond with
      | some dist => dictInsert d bond dist
      | none => d)
    d

/-- The `for ts_template in ts_guess_templates` scan of
`get_template_ts_guess`.  `reactantDist bond` is
`reactant.get_distance(*bond)` (an external geometric read on the fixed
reactant).  Returns the accepted template together with the dictionary in
force at acceptance, or `none` when the scan exhausts the library.  A
matching template whose accumulated dictionary is complete but where some
active bond's current distance exceeds `thresh` is passed over
(`pass`), the scan continuing with the next template. -/
def scanTemplates (reactantDist : ℕ × ℕ → ℚ) (thresh : ℚ)
    (bonds : List (ℕ × ℕ)) :
    BondDict → List TSTemplate → Option (TSTemplate × BondDict)
  | _, [] => none
  | d, t :: rest =>
      if t.isMatch then
        let d' := accumulateBondDists t bonds d
        if d'.length = bonds.length then
          if bonds.any fun bond => decide (thresh < reactantDist bond) then
            scanTemplates reactantDist thresh bonds d' rest
          else some (t, d')
        else scanTemplates reactantDist thresh bonds d' rest
      else scanTemplates reactantDist thresh bonds d rest

/-- `get_template_ts_guess(reactant, product, bond_rearrangement, method,
keywords, dist_thresh=4.0)`: scan the template library starting from an empty
distance dictionary; on acceptance delegate immediately to
`get_ts_guess_constrained_opt` — an external constrained-optimisation job,
embedded as the function `constOpt` from the accepted distance constraints to
an arbitrary result type — and return its result; return `none` (the "no
guess" sentinel) if the scan exhausts the library.  `thresh` is the
`dist_thresh` keyword, `4.0` by default at the call sites. -/
def get_template_ts_guess {τ : Type} (reactantDist : ℕ × ℕ → ℚ)
    (bonds : List (ℕ × ℕ)) (templates : List TSTemplate)
    (constOpt : BondDict → τ) (thresh : ℚ) : Option τ :=
  (scanTemplates reactantDist thresh bonds [] templates).map fun td =>
    constOpt td.2

/-- The construction invariant of a `Complex`: the combined atom sequence has
as many atoms as the constituent molecules together (it is their
concatenation). -/
def Complexe.wellformed (c : Complexe) : Prop :=
  c.atoms.length = (c.molecules.map Molecule.n_atoms).sum

instance (c : Complexe) : Decidable c.wellformed := by
  unfold Complexe.wellformed; infer_instance

/-- The keys of the bond-distance dictionary, in insertion order. -/
def dictKeys (d : BondDict) : List (ℕ × ℕ) := d.map Prod.fst

/-- Invariant of `active_bonds_and_dists_ts` throughout the scan: keys are
pairwise distinct (so `len(dict)` counts them) and every key is an active
bond. -/
def DictWF (bonds : List (ℕ × ℕ)) (d : BondDict) : Prop :=
  (dictKeys d).Nodup ∧ ∀ k ∈ dictKeys d, k ∈ bonds

/-! ### Concrete test fixtures

Small concrete molecules, complexes and templates used to exercise the
definitions on explicit inputs. -/

def atomW1 : Atom := ⟨"H", ⟨0, 0, 0⟩⟩

def atomW2 : Atom := ⟨"H", ⟨1, 1, 1⟩⟩

def mW1 : Molecule := ⟨[atomW1], 0, 1, "water"⟩

def mW2 : Molecule := ⟨[atomW2], 0, 1, "water"⟩

/-- The complex `mkComplex [mW1, mW2] "c"` builds. -/
def cxW : Complexe := ⟨"c", [mW1, mW2], [atomW1, atomW2], 0, 1, "water", []⟩

/-- A rotation draw with angle 0 (cosine 1, sine 0). -/
def rotW : RandomRotation := ⟨1, 0, ⟨0, 0, 1⟩⟩

/-- A unit sphere point along the x-axis. -/
def ptW : Point := ⟨1, 0, 0⟩

/-- A one-atom static molecule at the origin. -/
def mG1 : Molecule := ⟨[⟨"O", ⟨0, 0, 0⟩⟩], 0, 1, "water"⟩

/-- A two-atom moving molecule, centroid at the origin, atoms 5 Å out. -/
def mG2 : Molecule :=
  ⟨[⟨"H", ⟨5, 0, 0⟩⟩, ⟨"H", ⟨-5, 0, 0⟩⟩], 0, 1, "water"⟩

/-- The complex `mkComplex [mG1, mG2] "g"` builds. -/
def cxG : Complexe :=
  ⟨"g", [mG1, mG2],
    [⟨"O", ⟨0, 0, 0⟩⟩, ⟨"H", ⟨5, 0, 0⟩⟩, ⟨"H", ⟨-5, 0, 0⟩⟩], 0, 1, "water",
    []⟩

/-- The result of `cxG.generate_conformers [rotW] [ptW] 1`: one conformer,
the moving molecule shifted once by 0.1 Å along `ptW` (already far enough
apart after a single step). -/
def cxGconf : Complexe :=
  ⟨"g", [mG1, mG2],
    [⟨"O", ⟨0, 0, 0⟩⟩, ⟨"H", ⟨5, 0, 0⟩⟩, ⟨"H", ⟨-5, 0, 0⟩⟩], 0, 1, "water",
    [⟨"g" ++ "_conf" ++ toString 0,
      [⟨"O", ⟨0, 0, 0⟩⟩, ⟨"H", ⟨51 / 10, 0, 0⟩⟩, ⟨"H", ⟨-(49 / 10), 0, 0⟩⟩],
      0, 1⟩]⟩

/-- A matching template holding a stored distance for the single active bond
`(0, 1)`. -/
def tW : TSTemplate := ⟨true, [(0, 0), (1, 1)], [((0, 1), 1)]⟩

/-- A matching template holding a distance only for active bond `(0, 1)`. -/
def t1W : TSTemplate := ⟨true, [(0, 0), (1, 1), (2, 2), (3, 3)], [((0, 1), 1)]⟩

/-- A matching template holding a distance only for active bond `(2, 3)`. -/
def t2W : TSTemplate := ⟨true, [(0, 0), (1, 1), (2, 2), (3, 3)], [((2, 3), 2)]⟩

/-! ## Theorems -/

namespace Point

theorem add_assoc (p q r : Point) : add (add p q) r = add p (add q r) := by
  simp only [add]; ext <;> ring

theorem add_neg (p : Point) : add p (neg p) = zero := by
  simp only [add, neg, zero]; ext <;> ring

theorem neg_add (p : Point) : add (neg p) p = zero := by
  simp only [add, neg, zero]; ext <;> ring

end Point

namespace Atom

theorem translate_translate (a : Atom) (u v : Point) :
    (a.translate u).translate v = a.translate (u.add v) := by
  simp [translate, Point.add_assoc]

theorem translate_zero (a : Atom) : a.translate Point.zero = a := by
  obtain ⟨e, x, y, z⟩ := a
  simp only [translate, Point.add, Point.zero]
  norm_num

end Atom

/-- Round-trip law for the rotation primitive: rotating by `(c, s)` and then
by `(c, -s)` about the same unit axis is the identity, given `c² + s² = 1`. -/
theorem rotate_rotate_inv (a : Atom) (k : Point) (c s : ℚ)
    (hcs : c ^ 2 + s ^ 2 = 1) (hk : k.dot k = 1) :
    (a.rotate k c s).rotate k c (-s) = a := by
  obtain ⟨e, px, py, pz⟩ := a
  obtain ⟨kx, ky, kz⟩ := k
  simp only [Atom.rotate, Point.add, Point.smul, Point.cross, Point.dot] at *
  refine congrArg (Atom.mk e) ?_
  have h1 : kx ^ 2 + ky ^ 2 + kz ^ 2 = 1 := by
    have h : kx * kx + ky * ky + kz * kz = 1 := hk
    nlinarith [h]
  refine Point.ext ?_ ?_ ?_
  · linear_combination (px - (kx * px + ky * py + kz * pz) * kx) * hcs +
      (s ^ 2 * px + (kx * px + ky * py + kz * pz) * kx * (1 - c) ^ 2) * h1
  · linear_combination (py - (kx * px + ky * py + kz * pz) * ky) * hcs +
      (s ^ 2 * py + (kx * px + ky * py + kz * pz) * ky * (1 - c) ^ 2) * h1
  · linear_combination (pz - (kx * px + ky * py + kz * pz) * kz) * hcs +
      (s ^ 2 * pz + (kx * px + ky * py + kz * pz) * kz * (1 - c) ^ 2) * h1

/-- The trip out and back around a rotation about an arbitrary origin. -/
theorem atom_roundtrip (a : Atom) (axis : Point) (c s : ℚ) (origin : Point)
    (hcs : c ^ 2 + s ^ 2 = 1) (hax : axis.dot axis = 1) :
    ((((((a.translate origin.neg).rotate axis c s).translate
        origin).translate origin.neg).rotate axis c (-s)).translate origin)
      = a := by
  rw [Atom.translate_translate, Point.add_neg, Atom.translate_zero,
    rotate_rotate_inv _ _ _ _ hcs hax, Atom.translate_translate,
    Point.neg_add, Atom.translate_zero]

theorem applyAtIdxs_length (idxs : List ℕ) (f : Atom → Atom) :
    ∀ (s : ℕ) (l : List Atom), (applyAtIdxs idxs f s l).length = l.length
  | _, [] => rfl
  | s, _ :: as => by
      simp [applyAtIdxs, applyAtIdxs_length idxs f (s + 1) as]

theorem applyAtIdxs_getElem? (idxs : List ℕ) (f : Atom → Atom) :
    ∀ (s j : ℕ) (l : List Atom),
      (applyAtIdxs idxs f s l)[j]? =
        (l[j]?).map fun a => if s + j ∈ idxs then f a else a
  | _, _, [] => by simp [applyAtIdxs]
  | s, 0, a :: as => by simp [applyAtIdxs]
  | s, j + 1, a :: as => by
      have ih := applyAtIdxs_getElem? idxs f (s + 1) j as
      simp only [applyAtIdxs, List.getElem?_cons_succ, ih]
      have : s + 1 + j = s + (j + 1) := by omega
      rw [this]

theorem lt_listMin_iff (t : ℚ) :
    ∀ l : List ℚ, l ≠ [] → (t < listMin l ↔ ∀ q ∈ l, t < q)
  | [], h => absurd rfl h
  | [q], _ => by simp [listMin]
  | q :: r :: rest, _ => by
      have ih := lt_listMin_iff t (r :: rest) (by simp)
      simp only [listMin, lt_min_iff, ih, List.mem_cons, forall_eq_or_imp]
      try tauto

theorem le_listMax : ∀ l : List ℚ, ∀ q ∈ l, q ≤ listMax l
  | q :: rest, x, hx => by
      rcases List.mem_cons.mp hx with h | h
      · subst h; exact le_max_left _ _
      · exact le_trans (le_listMax rest x h) (le_max_right _ _)

theorem seqOptions_length {α : Type} :
    ∀ (l : List (Option α)) (as : List α),
      seqOptions l = some as → as.length = l.length
  | [], as, h => by
      simp only [seqOptions, Option.some.injEq] at h
      subst h; rfl
  | o :: os, as, h => by
      cases o with
      | none => simp [seqOptions] at h
      | some a =>
          simp only [seqOptions, Option.some_bind, Option.map_eq_some'] at h
          obtain ⟨as', h1, h2⟩ := h
          subst h2
          simp [seqOptions_length os as' h1]

theorem seqOptions_mem {α : Type} :
    ∀ (l : List (Option α)) (as : List α),
      seqOptions l = some as → ∀ a ∈ as, some a ∈ l
  | [], as, h => by
      simp only [seqOptions, Option.some.injEq] at h
      subst h; simp
  | o :: os, as, h => by
      cases o with
      | none => simp [seqOptions] at h
      | some a =>
          simp only [seqOptions, Option.some_bind, Option.map_eq_some'] at h
          obtain ⟨as', h1, h2⟩ := h
          subst h2
          intro b hb
          rcases List.mem_cons.mp hb with hb | hb
          · subst hb; exact List.mem_cons_self _ _
          · exact List.mem_cons_of_mem _ (seqOptions_mem os as' h1 b hb)

theorem mapWithIdx_length {α β : Type} (f : ℕ → α → β) :
    ∀ (n : ℕ) (l : List α), (mapWithIdx f n l).length = l.length
  | _, [] => rfl
  | n, _ :: as => by simp [mapWithIdx, mapWithIdx_length f (n + 1) as]

theorem mapWithIdx_getElem? {α β : Type} (f : ℕ → α → β) :
    ∀ (n j : ℕ) (l : List α),
      (mapWithIdx f n l)[j]? = (l[j]?).map (f (n + j))
  | _, _, [] => by simp [mapWithIdx]
  | n, 0, a :: as => by simp [mapWithIdx]
  | n, j + 1, a :: as => by
      have ih := mapWithIdx_getElem? f (n + 1) j as
      simp only [mapWithIdx, List.getElem?_cons_succ, ih]
      have : n + 1 + j = n + (j + 1) := by omega
      rw [this]

theorem mapWithIdx_mem {α β : Type} (f : ℕ → α → β) :
    ∀ (n : ℕ) (l : List α), ∀ b ∈ mapWithIdx f n l,
      ∃ k a, a ∈ l ∧ b = f k a
  | n, a :: as, b, hb => by
      rcases List.mem_cons.mp hb with hb | hb
      · exact ⟨n, a, List.mem_cons_self _ _, hb⟩
      · obtain ⟨k, a', ha', hb'⟩ := mapWithIdx_mem f (n + 1) as b hb
        exact ⟨k, a', List.mem_cons_of_mem _ ha', hb'⟩

theorem foldr_append_length (mols : List Molecule) :
    (mols.foldr (fun m acc => m.atoms ++ acc) []).length =
      (mols.map Molecule.n_atoms).sum := by
  induction mols with
  | nil => rfl
  | cons m rest ih => simp [ih, Molecule.n_atoms]

theorem mkComplex_fields (mols : List Molecule) (name : String)
    (cx : Complexe) (h : mkComplex mols name = some cx) :
    cx.molecules = mols ∧ cx.name = name ∧
      cx.atoms = mols.foldr (fun m acc => m.atoms ++ acc) [] ∧
      cx.conformers = [] := by
  cases mols with
  | nil => simp [mkComplex] at h
  | cons m0 rest =>
      simp only [mkComplex, Option.some.injEq] at h
      subst h
      exact ⟨rfl, rfl, rfl, rfl⟩

theorem mkComplex_wellformed (mols : List Molecule) (name : String)
    (cx : Complexe) (h : mkComplex mols name = some cx) : cx.wellformed := by
  obtain ⟨hm, -, ha, -⟩ := mkComplex_fields mols name cx h
  unfold Complexe.wellformed
  rw [hm, ha, foldr_append_length]

namespace Complexe

theorem firstIndex_zero (c : Complexe) : c.firstIndex 0 = 0 := rfl

theorem firstIndex_succ (c : Complexe) (i : ℕ)
    (hi : i < c.molecules.length) :
    c.firstIndex (i + 1) =
      c.firstIndex i + (c.molecules.get ⟨i, hi⟩).n_atoms := by
  unfold firstIndex
  have h1 : c.molecules.take (i + 1) =
      c.molecules.take i ++ [c.molecules.get ⟨i, hi⟩] := by
    rw [List.take_succ, List.getElem?_eq_getElem hi]
    rfl
  rw [h1, List.map_append, List.sum_append]
  rfl

theorem firstIndex_le_succ (c : Complexe) (i : ℕ) :
    c.firstIndex i ≤ c.firstIndex (i + 1) := by
  by_cases hi : i < c.molecules.length
  · rw [c.firstIndex_succ i hi]; exact Nat.le_add_right _ _
  · unfold firstIndex
    rw [List.take_of_length_le (by omega), List.take_of_length_le (by omega)]

theorem firstIndex_mono (c : Complexe) {i j : ℕ} (h : i ≤ j) :
    c.firstIndex i ≤ c.firstIndex j := by
  induction h with
  | refl => exact le_refl _
  | step _ ih => exact le_trans ih (c.firstIndex_le_succ _)

theorem firstIndex_length (c : Complexe) :
    c.firstIndex c.molecules.length = (c.molecules.map Molecule.n_atoms).sum := by
  unfold firstIndex
  rw [List.take_length]

theorem exists_range_of_lt_firstIndex (c : Complexe) :
    ∀ K x : ℕ, x < c.firstIndex K →
      ∃ i, i < K ∧ c.firstIndex i ≤ x ∧ x < c.firstIndex (i + 1)
  | 0, x, h => absurd h (by simp [firstIndex_zero])
  | K + 1, x, h => by
      by_cases hK : x < c.firstIndex K
      · obtain ⟨i, hi, h1, h2⟩ := exists_range_of_lt_firstIndex c K x hK
        exact ⟨i, by omega, h1, h2⟩
      · exact ⟨K, Nat.lt_succ_self K, Nat.le_of_not_lt hK, h⟩

end Complexe

theorem shiftLoop_length (fc : List Point) (p : Point) :
    ∀ (fuel : ℕ) (atoms res : List Atom),
      shiftLoop fc p fuel atoms = some res → res.length = atoms.length
  | 0, atoms, res, h => by simp [shiftLoop] at h
  | fuel + 1, atoms, res, h => by
      simp only [shiftLoop] at h
      by_cases hc : farEnoughApart fc
          (atoms.map fun a => a.translate (Point.smul (1 / 10) p))
      · rw [if_pos hc] at h
        cases h
        simp
      · rw [if_neg hc] at h
        have ih := shiftLoop_length fc p fuel _ res h
        simpa using ih

theorem shiftLoop_farEnough (fc : List Point) (p : Point) :
    ∀ (fuel : ℕ) (atoms res : List Atom),
      shiftLoop fc p fuel atoms = some res → farEnoughApart fc res
  | 0, atoms, res, h => by simp [shiftLoop] at h
  | fuel + 1, atoms, res, h => by
      simp only [shiftLoop] at h
      by_cases hc : farEnoughApart fc
          (atoms.map fun a => a.translate (Point.smul (1 / 10) p))
      · rw [if_pos hc] at h
        cases h
        exact hc
      · rw [if_neg hc] at h
        exact shiftLoop_farEnough fc p fuel _ res h

theorem shiftedBy_one (p : Point) (atoms : List Atom) :
    (atoms.map fun a => a.translate (Point.smul (1 / 10) p)) =
      shiftedBy p 1 atoms := by
  unfold shiftedBy
  norm_num

theorem shiftedBy_shiftedBy (p : Point) (i j : ℕ) (atoms : List Atom) :
    shiftedBy p j (shiftedBy p i atoms) = shiftedBy p (i + j) atoms := by
  unfold shiftedBy
  rw [List.map_map]
  congr 1
  funext a
  simp only [Function.comp_apply, Atom.translate_translate]
  congr 1
  ext <;> simp [Point.add, Point.smul] <;> ring

theorem shiftLoop_of_future (fc : List Point) (p : Point) :
    ∀ (K fuel : ℕ) (atoms : List Atom), K < fuel →
      farEnoughApart fc (shiftedBy p (K + 1) atoms) →
      ∃ res, shiftLoop fc p fuel atoms = some res
  | 0, fuel, atoms, hK, hc => by
      obtain ⟨f, rfl⟩ : ∃ f, fuel = f + 1 := ⟨fuel - 1, by omega⟩
      simp only [shiftLoop]
      rw [shiftedBy_one]
      rw [if_pos hc]
      exact ⟨_, rfl⟩
  | K + 1, fuel, atoms, hK, hc => by
      obtain ⟨f, rfl⟩ : ∃ f, fuel = f + 1 := ⟨fuel - 1, by omega⟩
      simp only [shiftLoop]
      rw [shiftedBy_one]
      by_cases h : farEnoughApart fc (shiftedBy p 1 atoms)
      · rw [if_pos h]
        exact ⟨_, rfl⟩
      · rw [if_neg h]
        apply shiftLoop_of_future fc p K f (shiftedBy p 1 atoms) (by omega)
        rw [shiftedBy_shiftedBy, Nat.add_comm 1 (K + 1)]
        exact hc

theorem dot_sq_le (p v : Point) : (p.dot v) ^ 2 ≤ p.dot p * v.dot v := by
  obtain ⟨px, py, pz⟩ := p
  obtain ⟨vx, vy, vz⟩ := v
  simp only [Point.dot]
  nlinarith [sq_nonneg (px * vy - py * vx), sq_nonneg (py * vz - pz * vy),
    sq_nonneg (pz * vx - px * vz)]

theorem sqDist_nonneg (p q : Point) : 0 ≤ Point.sqDist p q := by
  unfold Point.sqDist
  positivity

theorem sqDist_shift_gt (a b p : Point) (hp : p.dot p = 1) (t : ℚ)
    (ht : Point.sqDist a b + 3 ≤ t) :
    4 < Point.sqDist a (b.add (Point.smul t p)) := by
  have key : Point.sqDist a (b.add (Point.smul t p)) =
      Point.sqDist a b -
        2 * t * (p.x * (a.x - b.x) + p.y * (a.y - b.y) + p.z * (a.z - b.z)) +
        t ^ 2 * p.dot p := by
    simp only [Point.sqDist, Point.add, Point.smul, Point.dot]
    ring
  set w := p.x * (a.x - b.x) + p.y * (a.y - b.y) + p.z * (a.z - b.z) with hwdef
  have hw : w ^ 2 ≤ Point.sqDist a b := by
    have h := dot_sq_le p ⟨a.x - b.x, a.y - b.y, a.z - b.z⟩
    rw [hp] at h
    simp only [Point.dot] at h
    have h2 : (a.x - b.x) * (a.x - b.x) + (a.y - b.y) * (a.y - b.y) +
        (a.z - b.z) * (a.z - b.z) = Point.sqDist a b := by
      simp only [Point.sqDist]
      ring
    calc w ^ 2 ≤ 1 * ((a.x - b.x) * (a.x - b.x) + (a.y - b.y) * (a.y - b.y) +
          (a.z - b.z) * (a.z - b.z)) := h
      _ = Point.sqDist a b := by rw [one_mul, h2]
  rw [key, hp]
  have hQ : 0 ≤ Point.sqDist a b := sqDist_nonneg a b
  set Q := Point.sqDist a b with hQdef
  have h2w : 2 * w ≤ 1 + Q := by nlinarith [sq_nonneg (w - 1)]
  have htw : 5 / 2 ≤ t - w := by linarith
  nlinarith [sq_nonneg (t - w - 5 / 2), htw, hw]

theorem shiftLoop_terminates (fc : List Point) (p : Point) (atoms : List Atom)
    (hfc : fc ≠ []) (hatoms : atoms ≠ []) (hp : p.dot p = 1) :
    ∃ fuel res, shiftLoop fc p fuel atoms = some res := by
  classical
  set coordsL := atoms.map Atom.coord with hcoords
  set Qm := listMax (pairSqDists fc coordsL) with hQm
  obtain ⟨n, hn⟩ := exists_nat_ge ((Qm + 3) * 10)
  set t : ℚ := ((n + 1 : ℕ) : ℚ) / 10 with hT
  have ht10 : Qm + 3 ≤ t := by
    rw [hT, le_div_iff₀ (by norm_num : (0 : ℚ) < 10)]
    push_cast
    linarith
  have hmapc : (shiftedBy p (n + 1) atoms).map Atom.coord =
      coordsL.map fun b => b.add (Point.smul t p) := by
    unfold shiftedBy
    rw [hcoords, List.map_map, List.map_map]
    congr 1
  have hcond : farEnoughApart fc (shiftedBy p (n + 1) atoms) := by
    unfold farEnoughApart
    rw [hmapc]
    have hne : pairSqDists fc (coordsL.map fun b => b.add (Point.smul t p)) ≠
        [] := by
      obtain ⟨a, ha⟩ := List.exists_mem_of_ne_nil fc hfc
      obtain ⟨a0, ha0⟩ := List.exists_mem_of_ne_nil atoms hatoms
      have hb : a0.coord.add (Point.smul t p) ∈
          coordsL.map fun b => b.add (Point.smul t p) := by
        rw [hcoords]
        exact List.mem_map.mpr ⟨a0.coord, List.mem_map.mpr ⟨a0, ha0, rfl⟩, rfl⟩
      refine List.ne_nil_of_mem (a := Point.sqDist a
        (a0.coord.add (Point.smul t p))) ?_
      unfold pairSqDists
      exact List.mem_flatMap.mpr ⟨a, ha, List.mem_map.mpr ⟨_, hb, rfl⟩⟩
    rw [lt_listMin_iff _ _ hne]
    intro q hq
    unfold pairSqDists at hq
    obtain ⟨a, ha, hq⟩ := List.mem_flatMap.mp hq
    obtain ⟨b2, hb2, rfl⟩ := List.mem_map.mp hq
    obtain ⟨b, hb, rfl⟩ := List.mem_map.mp hb2
    have hle : Point.sqDist a b ≤ Qm := by
      rw [hQm]
      refine le_listMax _ _ ?_
      unfold pairSqDists
      exact List.mem_flatMap.mpr ⟨a, ha, List.mem_map.mpr ⟨b, hb, rfl⟩⟩
    exact sqDist_shift_gt a b p hp t (by linarith)
  obtain ⟨res, hres⟩ :=
    shiftLoop_of_future fc p n (n + 1) atoms (Nat.lt_succ_self n) hcond
  exact ⟨n + 1, res, hres⟩

theorem findVal_isSome_iff {κ ν : Type} [DecidableEq κ] :
    ∀ (d : List (κ × ν)) (k : κ),
      (findVal d k).isSome ↔ k ∈ d.map Prod.fst
  | [], k => by simp [findVal]
  | e :: rest, k => by
      by_cases h : e.1 = k
      · simp [findVal, h]
      · have hne : ¬k = e.1 := fun hk => h hk.symm
        simp [findVal, h, hne, findVal_isSome_iff rest k]

theorem dictKeys_dictInsert (d : BondDict) (k : ℕ × ℕ) (v : ℚ) :
    dictKeys (dictInsert d k v) =
      if k ∈ dictKeys d then dictKeys d else dictKeys d ++ [k] := by
  unfold dictInsert
  by_cases h : (findVal d k).isSome
  · have hmem : k ∈ dictKeys d := (findVal_isSome_iff d k).mp h
    rw [if_pos h, if_pos hmem]
    unfold dictKeys
    rw [List.map_map]
    refine List.map_congr_left fun e _ => ?_
    by_cases he : e.1 = k
    · simp [he]
    · simp [he]
  · have hmem : k ∉ dictKeys d := fun hm => h ((findVal_isSome_iff d k).mpr hm)
    rw [if_neg h, if_neg hmem]
    unfold dictKeys
    simp

theorem mem_dictKeys_insert_self (d : BondDict) (k : ℕ × ℕ) (v : ℚ) :
    k ∈ dictKeys (dictInsert d k v) := by
  rw [dictKeys_dictInsert]
  by_cases h : k ∈ dictKeys d
  · rwa [if_pos h]
  · rw [if_neg h]
    simp

theorem mem_dictKeys_insert_of_mem (d : BondDict) (k k' : ℕ × ℕ) (v : ℚ)
    (h : k' ∈ dictKeys d) : k' ∈ dictKeys (dictInsert d k v) := by
  rw [dictKeys_dictInsert]
  by_cases hk : k ∈ dictKeys d
  · rwa [if_pos hk]
  · rw [if_neg hk]
    exact List.mem_append_left _ h

theorem DictWF_dictInsert (bonds : List (ℕ × ℕ)) (d : BondDict)
    (k : ℕ × ℕ) (v : ℚ) (hk : k ∈ bonds) (h : DictWF bonds d) :
    DictWF bonds (dictInsert d k v) := by
  obtain ⟨hnd, hsub⟩ := h
  unfold DictWF
  rw [dictKeys_dictInsert]
  by_cases hmem : k ∈ dictKeys d
  · rw [if_pos hmem]
    exact ⟨hnd, hsub⟩
  · rw [if_neg hmem]
    refine ⟨?_, ?_⟩
    · rw [List.nodup_append]
      refine ⟨hnd, List.nodup_singleton k, ?_⟩
      intro a ha hak
      rcases List.mem_singleton.mp hak with rfl
      exact hmem ha
    · intro k' hk'
      rcases List.mem_append.mp hk' with h' | h'
      · exact hsub k' h'
      · rcases List.mem_singleton.mp h' with rfl
        exact hk

theorem accumulateBondDists_WF (t : TSTemplate) (bonds : List (ℕ × ℕ)) :
    ∀ (L : List (ℕ × ℕ)) (d : BondDict), (∀ b ∈ L, b ∈ bonds) →
      DictWF bonds d → DictWF bonds (L.foldl
        (fun d bond =>
          match t.bondDistance bond with
          | some dist => dictInsert d bond dist
          | none => d) d)
  | [], d, _, hwf => hwf
  | b :: L, d, hsub, hwf => by
      have hb : b ∈ bonds := hsub b (List.mem_cons_self _ _)
      have hsub' : ∀ x ∈ L, x ∈ bonds := fun x hx =>
        hsub x (List.mem_cons_of_mem _ hx)
      simp only [List.foldl_cons]
      cases hbd : t.bondDistance b with
      | none => exact accumulateBondDists_WF t bonds L d hsub' hwf
      | some v =>
          exact accumulateBondDists_WF t bonds L _ hsub'
            (DictWF_dictInsert bonds d b v hb hwf)

theorem accumulate_keys_mono (t : TSTemplate) :
    ∀ (L : List (ℕ × ℕ)) (d : BondDict) (k : ℕ × ℕ), k ∈ dictKeys d →
      k ∈ dictKeys (L.foldl
        (fun d bond =>
          match t.bondDistance bond with
          | some dist => dictInsert d bond dist
          | none => d) d)
  | [], _, _, hk => hk
  | b :: L, d, k, hk => by
      simp only [List.foldl_cons]
      cases hbd : t.bondDistance b with
      | none => exact accumulate_keys_mono t L d k hk
      | some v =>
          exact accumulate_keys_mono t L _ k
            (mem_dictKeys_insert_of_mem d b k v hk)

theorem accumulate_mem_of_some (t : TSTemplate) :
    ∀ (L : List (ℕ × ℕ)) (d : BondDict) (b : ℕ × ℕ) (v : ℚ), b ∈ L →
      t.bondDistance b = some v →
      b ∈ dictKeys (L.foldl
        (fun d bond =>
          match t.bondDistance bond with
          | some dist => dictInsert d bond dist
          | none => d) d)
  | [], _, b, v, hb, _ => absurd hb (List.not_mem_nil b)
  | b0 :: L, d, b, v, hb, hbd => by
      rcases List.mem_cons.mp hb with rfl | hb'
      · simp only [List.foldl_cons, hbd]
        exact accumulate_keys_mono t L _ b (mem_dictKeys_insert_self d b v)
      · simp only [List.foldl_cons]
        cases hbd0 : t.bondDistance b0 with
        | none => exact accumulate_mem_of_some t L d b v hb' hbd
        | some v0 => exact accumulate_mem_of_some t L _ b v hb' hbd

theorem dict_complete_of_length (bonds : List (ℕ × ℕ)) (d : BondDict)
    (hwf : DictWF bonds d) (hlen : d.length = bonds.length) :
    ∀ b ∈ bonds, b ∈ dictKeys d := by
  obtain ⟨hnd, hsub⟩ := hwf
  have hkl : (dictKeys d).length = d.length := List.length_map _ _
  have hsubF : (dictKeys d).toFinset ⊆ bonds.toFinset := by
    intro x hx
    exact List.mem_toFinset.mpr (hsub x (List.mem_toFinset.mp hx))
  have hcard1 : (dictKeys d).toFinset.card = (dictKeys d).length :=
    List.toFinset_card_of_nodup hnd
  have hcard2 : bonds.toFinset.card ≤ bonds.length := List.toFinset_card_le _
  have heq : (dictKeys d).toFinset = bonds.toFinset := by
    apply Finset.eq_of_subset_of_card_le hsubF
    calc bonds.toFinset.card ≤ bonds.length := hcard2
      _ = d.length := hlen.symm
      _ = (dictKeys d).length := hkl.symm
      _ = (dictKeys d).toFinset.card := hcard1.symm
  intro b hb
  have : b ∈ bonds.toFinset := List.mem_toFinset.mpr hb
  rw [← heq] at this
  exact List.mem_toFinset.mp this

theorem accumulate_complete (t : TSTemplate) (bonds : List (ℕ × ℕ))
    (d : BondDict) (hwf : DictWF bonds d) (hnd : bonds.Nodup)
    (hall : ∀ b ∈ bonds, ∃ v, t.bondDistance b = some v) :
    (accumulateBondDists t bonds d).length = bonds.length := by
  have hwf' : DictWF bonds (accumulateBondDists t bonds d) :=
    accumulateBondDists_WF t bonds bonds d (fun _ hb => hb) hwf
  have hcover : ∀ b ∈ bonds, b ∈ dictKeys (accumulateBondDists t bonds d) := by
    intro b hb
    obtain ⟨v, hv⟩ := hall b hb
    exact accumulate_mem_of_some t bonds d b v hb hv
  obtain ⟨hnd', hsub'⟩ := hwf'
  have hperm : List.Perm (dictKeys (accumulateBondDists t bonds d)) bonds := by
    rw [List.perm_ext_iff_of_nodup hnd' hnd]
    intro a
    exact ⟨fun ha => hsub' a ha, fun ha => hcover a ha⟩
  calc (accumulateBondDists t bonds d).length
      = (dictKeys (accumulateBondDists t bonds d)).length :=
        (List.length_map _ _).symm
    _ = bonds.length := hperm.length_eq

theorem scanTemplates_accept (rd : ℕ × ℕ → ℚ) (thresh : ℚ)
    (bonds : List (ℕ × ℕ)) :
    ∀ (templates : List TSTemplate) (d : BondDict) (t : TSTemplate)
      (dout : BondDict), DictWF bonds d →
      scanTemplates rd thresh bonds d templates = some (t, dout) →
      t.isMatch = true ∧ DictWF bonds dout ∧ dout.length = bonds.length ∧
        ∀ b ∈ bonds, rd b ≤ thresh
  | [], _, _, _, _, hscan => by simp [scanTemplates] at hscan
  | t' :: rest, d, t, dout, hwf, hscan => by
      by_cases hm : t'.isMatch = true
      · rw [scanTemplates, if_pos hm] at hscan
        have hwfd' : DictWF bonds (accumulateBondDists t' bonds d) :=
          accumulateBondDists_WF t' bonds bonds d (fun _ hb => hb) hwf
        by_cases hlen :
            (accumulateBondDists t' bonds d).length = bonds.length
        · rw [if_pos hlen] at hscan
          by_cases hany :
              (bonds.any fun bond => decide (thresh < rd bond)) = true
          · rw [if_pos hany] at hscan
            exact scanTemplates_accept rd thresh bonds rest _ t dout
              hwfd' hscan
          · rw [if_neg hany] at hscan
            cases hscan
            refine ⟨hm, hwfd', hlen, ?_⟩
            intro b hb
            have := (List.any_eq_false ..).mp (Bool.not_eq_true _ |>.mp hany)
            have hb' := this b hb
            simpa using le_of_not_lt (by simpa using hb')
        · rw [if_neg hlen] at hscan
          exact scanTemplates_accept rd thresh bonds rest _ t dout hwfd' hscan
      · rw [scanTemplates, if_neg hm] at hscan
        exact scanTemplates_accept rd thresh bonds rest d t dout hwf hscan

/-! ## Claim theorems -/

/-- **C8**: for every reactant-distance function, active-bond list,
constrained-optimisation strategy and threshold, an empty template library
makes `get_template_ts_guess` return the "no guess" sentinel `none`; since
this holds uniformly in the (arbitrary) `constOpt` strategy and its result
type, no constrained-optimisation job is consulted or run. -/
theorem c8_empty_template_library_returns_none {τ : Type}
    (rd : ℕ × ℕ → ℚ) (bonds : List (ℕ × ℕ)) (constOpt : BondDict → τ)
    (thresh : ℚ) :
    get_template_ts_guess rd bonds [] constOpt thresh = none := rfl

/-- **C3**: for a matching template with stored distances for all active
bonds: (i) if some active bond's current reactant distance exceeds
`dist_thresh`, the template is skipped and the scan continues with the
remaining templates (carrying the accumulated dictionary); (ii) if no bond
exceeds the threshold, the scan accepts this template immediately, with the
accumulated distances, independently of any later template; and (iii) the
whole function then returns exactly the constrained-optimisation strategy's
result on those distances. -/
theorem c3_threshold_skip_and_immediate_accept (rd : ℕ × ℕ → ℚ) (thresh : ℚ)
    (bonds : List (ℕ × ℕ)) (d : BondDict) (t : TSTemplate)
    (rest : List TSTemplate) (hm : t.isMatch = true) (hnd : bonds.Nodup)
    (hwf : DictWF bonds d)
    (hall : ∀ b ∈ bonds, ∃ v, t.bondDistance b = some v) :
    ((∃ b ∈ bonds, thresh < rd b) →
        scanTemplates rd thresh bonds d (t :: rest) =
          scanTemplates rd thresh bonds (accumulateBondDists t bonds d)
            rest) ∧
    ((∀ b ∈ bonds, rd b ≤ thresh) →
        scanTemplates rd thresh bonds d (t :: rest) =
          some (t, accumulateBondDists t bonds d)) ∧
    ((∀ b ∈ bonds, rd b ≤ thresh) →
        ∀ (τ : Type) (constOpt : BondDict → τ),
          get_template_ts_guess rd bonds (t :: rest) constOpt thresh =
            some (constOpt (accumulateBondDists t bonds []))) := by
  have hlen := accumulate_complete t bonds d hwf hnd hall
  refine ⟨?_, ?_, ?_⟩
  · intro hex
    obtain ⟨b, hb, hbt⟩ := hex
    have hany : (bonds.any fun bond => decide (thresh < rd bond)) = true :=
      List.any_eq_true.mpr ⟨b, hb, by simpa using hbt⟩
    rw [scanTemplates, if_pos hm, if_pos hlen, if_pos hany]
  · intro hle
    have hany : ¬(bonds.any fun bond => decide (thresh < rd bond)) = true := by
      intro hany
      obtain ⟨b, hb, hbt⟩ := List.any_eq_true.mp hany
      exact absurd (hle b hb) (not_le.mpr (by simpa using hbt))
    rw [scanTemplates, if_pos hm, if_pos hlen, if_neg hany]
  · intro hle τ constOpt
    have hwf0 : DictWF bonds [] := ⟨List.nodup_nil, by simp [dictKeys]⟩
    have hlen0 := accumulate_complete t bonds [] hwf0 hnd hall
    have hany : ¬(bonds.any fun bond => decide (thresh < rd bond)) = true := by
      intro hany
      obtain ⟨b, hb, hbt⟩ := List.any_eq_true.mp hany
      exact absurd (hle b hb) (not_le.mpr (by simpa using hbt))
    unfold get_template_ts_guess
    rw [scanTemplates, if_pos hm, if_pos hlen0, if_neg hany]
    rfl

/-- **C1 — counterexample**: the distance dictionary is created *once*,
before the template loop, and is never reset between templates.  The scan
below accepts the *second* template although that template has no stored
distance for the active bond `(0, 1)` (its distance was contributed by the
first, incomplete, template).  This refutes the claim that a template is
accepted only if a distance was found *in that same template* for every
active bond, and that a missing mapped edge forces the template's
rejection. -/
theorem c1_counterexample_cross_template_acceptance :
    scanTemplates (fun _ => 2) 4 [(0, 1), (2, 3)] []
        [TSTemplate.mk true [(0, 0), (1, 1), (2, 2), (3, 3)] [((0, 1), 1)],
         TSTemplate.mk true [(0, 0), (1, 1), (2, 2), (3, 3)] [((2, 3), 2)]] =
      some (TSTemplate.mk true [(0, 0), (1, 1), (2, 2), (3, 3)] [((2, 3), 2)],
        [((0, 1), 1), ((2, 3), 2)]) ∧
    TSTemplate.bondDistance
        (TSTemplate.mk true [(0, 0), (1, 1), (2, 2), (3, 3)] [((2, 3), 2)])
        (0, 1) = none := by
  constructor
  · rfl
  · rfl

/-- **C1 (amended)**: a matching template is accepted (delegating to the
constrained-optimisation strategy on the accumulated distances) only if the
*accumulated* dictionary — which persists across the whole scan and may
contain distances contributed by earlier matching templates — holds a
distance for every active bond; an active bond whose mapped edge is absent
from the current template is skipped non-fatally, and the current template is
passed over (the scan continuing with later templates) only when the
accumulated dictionary is still incomplete. -/
theorem c1_accept_requires_accumulated_cover :
    (∀ (rd : ℕ × ℕ → ℚ) (thresh : ℚ) (bonds : List (ℕ × ℕ))
        (templates : List TSTemplate) (t : TSTemplate) (dout : BondDict),
        scanTemplates rd thresh bonds [] templates = some (t, dout) →
        t.isMatch = true ∧ (∀ b ∈ bonds, b ∈ dictKeys dout) ∧
          (∀ k ∈ dictKeys dout, k ∈ bonds) ∧
          ∀ (τ : Type) (constOpt : BondDict → τ),
            get_template_ts_guess rd bonds templates constOpt thresh =
              some (constOpt dout)) ∧
    (∀ (rd : ℕ × ℕ → ℚ) (thresh : ℚ) (bonds : List (ℕ × ℕ)) (d : BondDict)
        (t : TSTemplate) (rest : List TSTemplate), t.isMatch = true →
        (accumulateBondDists t bonds d).length ≠ bonds.length →
        scanTemplates rd thresh bonds d (t :: rest) =
          scanTemplates rd thresh bonds (accumulateBondDists t bonds d)
            rest) := by
  constructor
  · intro rd thresh bonds templates t dout hscan
    have hwf0 : DictWF bonds [] := ⟨List.nodup_nil, by simp [dictKeys]⟩
    obtain ⟨hm, hwf, hlen, -⟩ :=
      scanTemplates_accept rd thresh bonds templates [] t dout hwf0 hscan
    refine ⟨hm, dict_complete_of_length bonds dout hwf hlen, hwf.2, ?_⟩
    intro τ constOpt
    unfold get_template_ts_guess
    rw [hscan]
    rfl
  · intro rd thresh bonds d t rest hm hne
    rw [scanTemplates, if_pos hm, if_neg hne]

/-- **C4**: every precondition violation fails immediately and fatally:
constructing a `Complex` from an empty molecule list fails
(`self.molecules[0]` raises); `get_atom_indexes` with a `mol_index` that does
not name a constituent molecule fails (the `assert`); and `translate_mol`,
`rotate_mol` and `calc_repulsion` on a complex whose atoms are not populated
fail (the `requires_atoms` precondition). -/
theorem c4_precondition_violations_fail :
    (∀ name : String, mkComplex [] name = none) ∧
    (∀ (cx : Complexe) (i : ℕ), cx.molecules.length ≤ i →
        cx.get_atom_indexes i = none) ∧
    (∀ (cx : Complexe) (vec axis origin : Point) (c s : ℚ) (i : ℕ),
        cx.atoms = [] →
        cx.translate_mol vec i = none ∧
          cx.rotate_mol axis c s i origin = none ∧
          cx.calc_repulsion i = none) := by
  refine ⟨fun _ => rfl, ?_, ?_⟩
  · intro cx i h
    unfold Complexe.get_atom_indexes
    rw [if_neg (by omega)]
  · intro cx vec axis origin c s i h
    refine ⟨?_, ?_, ?_⟩
    · unfold Complexe.translate_mol
      rw [if_pos h]
    · unfold Complexe.rotate_mol
      rw [if_pos h]
    · unfold Complexe.calc_repulsion
      rw [if_pos h]

/-- **C5**: for a `Complex` built from molecules `n₀ … n_{k−1}`,
`get_atom_indexes i` is exactly the `n_i` consecutive indices starting at
`Σ_{k<i} n_k`; every returned index is a valid combined-atom index; every
combined-atom index is covered by some molecule's range; and ranges of
distinct molecules never overlap — a gapless, overlap-free partition. -/
theorem c5_atom_index_ranges_partition (mols : List Molecule) (name : String)
    (cx : Complexe) (hmk : mkComplex mols name = some cx) :
    (∀ (i : ℕ) (hi : i < mols.length),
        cx.get_atom_indexes i =
          some (List.range' (((mols.take i).map Molecule.n_atoms).sum)
            (mols.get ⟨i, hi⟩).n_atoms)) ∧
    (∀ (i : ℕ) (ri : List ℕ), cx.get_atom_indexes i = some ri →
        ∀ x ∈ ri, x < cx.atoms.length) ∧
    (∀ x : ℕ, x < cx.atoms.length →
        ∃ (i : ℕ) (ri : List ℕ), cx.get_atom_indexes i = some ri ∧ x ∈ ri) ∧
    (∀ (i j : ℕ) (ri rj : List ℕ), i ≠ j →
        cx.get_atom_indexes i = some ri → cx.get_atom_indexes j = some rj →
        ∀ x ∈ ri, x ∉ rj) := by
  obtain ⟨hmol, -, -, -⟩ := mkComplex_fields mols name cx hmk
  have hwf := mkComplex_wellformed mols name cx hmk
  subst hmol
  have htotal : cx.atoms.length = cx.firstIndex cx.molecules.length := by
    rw [cx.firstIndex_length]
    exact hwf
  have hsome : ∀ (i : ℕ), i < cx.molecules.length →
      cx.get_atom_indexes i = some (List.range' (cx.firstIndex i)
        (cx.firstIndex (i + 1) - cx.firstIndex i)) := by
    intro i hi
    unfold Complexe.get_atom_indexes
    rw [if_pos hi]
  have hinv : ∀ (i : ℕ) (ri : List ℕ), cx.get_atom_indexes i = some ri →
      i < cx.molecules.length ∧
        ri = List.range' (cx.firstIndex i)
          (cx.firstIndex (i + 1) - cx.firstIndex i) := by
    intro i ri hri
    unfold Complexe.get_atom_indexes at hri
    by_cases hi : i < cx.molecules.length
    · rw [if_pos hi] at hri
      cases hri
      exact ⟨hi, rfl⟩
    · rw [if_neg hi] at hri
      cases hri
  have hmem_iff : ∀ (i x : ℕ), i < cx.molecules.length →
      (x ∈ List.range' (cx.firstIndex i)
          (cx.firstIndex (i + 1) - cx.firstIndex i) ↔
        cx.firstIndex i ≤ x ∧ x < cx.firstIndex (i + 1)) := by
    intro i x hi
    rw [List.mem_range'_1,
      Nat.add_sub_cancel' (cx.firstIndex_le_succ i)]
  refine ⟨?_, ?_, ?_, ?_⟩
  · intro i hi
    rw [hsome i hi, cx.firstIndex_succ i hi, Nat.add_sub_cancel_left]
    rfl
  · intro i ri hri x hx
    obtain ⟨hi, rfl⟩ := hinv i ri hri
    have hx' := ((hmem_iff i x hi).mp hx).2
    have hle : cx.firstIndex (i + 1) ≤ cx.firstIndex cx.molecules.length :=
      cx.firstIndex_mono hi
    omega
  · intro x hx
    rw [htotal] at hx
    obtain ⟨i, hi, h1, h2⟩ :=
      cx.exists_range_of_lt_firstIndex cx.molecules.length x hx
    exact ⟨i, _, hsome i hi, (hmem_iff i x hi).mpr ⟨h1, h2⟩⟩
  · have key : ∀ (i j : ℕ) (ri rj : List ℕ), i < j →
        cx.get_atom_indexes i = some ri → cx.get_atom_indexes j = some rj →
        ∀ x ∈ ri, x ∉ rj := by
      intro i j ri rj hij hri hrj x hxi hxj
      obtain ⟨hi, rfl⟩ := hinv i ri hri
      obtain ⟨hj, rfl⟩ := hinv j rj hrj
      have h1 := ((hmem_iff i x hi).mp hxi).2
      have h2 := ((hmem_iff j x hj).mp hxj).1
      have hle : cx.firstIndex (i + 1) ≤ cx.firstIndex j :=
        cx.firstIndex_mono hij
      omega
    intro i j ri rj hne hri hrj x hxi
    rcases Nat.lt_or_ge i j with hij | hij
    · exact key i j ri rj hij hri hrj x hxi
    · intro hxj
      have hji : j < i := by omega
      exact key j i rj ri hji hrj hri x hxj hxi

/-- **C6**: on a populated complex and a valid molecule index,
`translate_mol` and `rotate_mol` succeed, change only the atoms inside
molecule `i`'s contiguous index range — every atom outside it keeps its exact
value — and transform each in-range atom exactly by the rigid-transform
formula (`rotate_mol`: translate by `−origin`, rotate about the axis, then
translate back by `+origin`). -/
theorem c6_translate_rotate_mol_frame (cx : Complexe)
    (vec axis origin : Point) (c s : ℚ) (i : ℕ) (hpop : cx.atoms ≠ [])
    (hi : i < cx.molecules.length) :
    ∃ cT cR : Complexe,
      cx.translate_mol vec i = some cT ∧
      cx.rotate_mol axis c s i origin = some cR ∧
      (∀ j : ℕ, j < cx.firstIndex i ∨ cx.firstIndex (i + 1) ≤ j →
          cT.atoms[j]? = cx.atoms[j]? ∧ cR.atoms[j]? = cx.atoms[j]?) ∧
      (∀ j : ℕ, cx.firstIndex i ≤ j → j < cx.firstIndex (i + 1) →
          cT.atoms[j]? = (cx.atoms[j]?).map (fun a => a.translate vec) ∧
          cR.atoms[j]? = (cx.atoms[j]?).map fun a =>
            ((a.translate origin.neg).rotate axis c s).translate origin) := by
  set idxs : List ℕ := List.range' (cx.firstIndex i)
    (cx.firstIndex (i + 1) - cx.firstIndex i) with hidxs
  have hmem : ∀ j : ℕ,
      j ∈ idxs ↔ cx.firstIndex i ≤ j ∧ j < cx.firstIndex (i + 1) := by
    intro j
    rw [hidxs, List.mem_range'_1,
      Nat.add_sub_cancel' (cx.firstIndex_le_succ i)]
  have hT : cx.translate_mol vec i =
      some { cx with
        atoms := applyAtIdxs idxs (fun a => a.translate vec) 0 cx.atoms } := by
    unfold Complexe.translate_mol Complexe.get_atom_indexes
    rw [if_neg hpop, if_pos hi]
    rfl
  have hR : cx.rotate_mol axis c s i origin =
      some { cx with
        atoms := applyAtIdxs idxs (fun a =>
          ((a.translate origin.neg).rotate axis c s).translate origin)
          0 cx.atoms } := by
    unfold Complexe.rotate_mol Complexe.get_atom_indexes
    rw [if_neg hpop, if_pos hi]
    rfl
  refine ⟨_, _, hT, hR, ?_, ?_⟩
  · intro j hj
    have hnot : j ∉ idxs := by
      rw [hmem]
      omega
    constructor
    · show (applyAtIdxs idxs _ 0 cx.atoms)[j]? = cx.atoms[j]?
      rw [applyAtIdxs_getElem?]
      cases cx.atoms[j]? with
      | none => rfl
      | some a => simp [hnot]
    · show (applyAtIdxs idxs _ 0 cx.atoms)[j]? = cx.atoms[j]?
      rw [applyAtIdxs_getElem?]
      cases cx.atoms[j]? with
      | none => rfl
      | some a => simp [hnot]
  · intro j h1 h2
    have hin : j ∈ idxs := by
      rw [hmem]
      omega
    constructor
    · show (applyAtIdxs idxs _ 0 cx.atoms)[j]? = _
      rw [applyAtIdxs_getElem?]
      cases cx.atoms[j]? with
      | none => rfl
      | some a => simp [hin]
    · show (applyAtIdxs idxs _ 0 cx.atoms)[j]? = _
      rw [applyAtIdxs_getElem?]
      cases cx.atoms[j]? with
      | none => rfl
      | some a => simp [hin]

/-- **C7**: rotating molecule `i` about a (unit) axis by the angle with
cosine `c` and sine `s` about an arbitrary origin, then rotating by the
opposite angle (`(c, -s)`) about the same axis and origin, restores the
complex exactly — the round trip is the identity over exact arithmetic. -/
theorem c7_rotate_mol_roundtrip (cx : Complexe) (axis origin : Point)
    (c s : ℚ) (i : ℕ) (hpop : cx.atoms ≠ []) (hi : i < cx.molecules.length)
    (hax : axis.dot axis = 1) (hcs : c ^ 2 + s ^ 2 = 1) :
    (cx.rotate_mol axis c s i origin).bind
      (fun c1 => c1.rotate_mol axis c (-s) i origin) = some cx := by
  set idxs : List ℕ := List.range' (cx.firstIndex i)
    (cx.firstIndex (i + 1) - cx.firstIndex i) with hidxs
  set f : Atom → Atom := fun a =>
    ((a.translate origin.neg).rotate axis c s).translate origin with hf
  set g : Atom → Atom := fun a =>
    ((a.translate origin.neg).rotate axis c (-s)).translate origin with hg
  set A1 : List Atom := applyAtIdxs idxs f 0 cx.atoms with hA1
  have hR1 : cx.rotate_mol axis c s i origin =
      some { cx with atoms := A1 } := by
    unfold Complexe.rotate_mol Complexe.get_atom_indexes
    rw [if_neg hpop, if_pos hi]
    rfl
  have hA1ne : A1 ≠ [] := by
    intro h
    apply hpop
    have := applyAtIdxs_length idxs f 0 cx.atoms
    rw [hA1] at h
    rw [h] at this
    exact List.eq_nil_of_length_eq_zero this.symm
  have hA2 : applyAtIdxs idxs g 0 A1 = cx.atoms := by
    apply List.ext_getElem?
    intro j
    rw [hA1, applyAtIdxs_getElem?, applyAtIdxs_getElem?, Option.map_map]
    cases ho : cx.atoms[j]? with
    | none => rfl
    | some a =>
        by_cases hj : (0 + j) ∈ idxs
        · simp only [Option.map_some', Function.comp_apply, if_pos hj]
          rw [hf, hg]
          simp only []
          rw [atom_roundtrip a axis c s origin hcs hax]
        · simp only [Option.map_some', Function.comp_apply, if_neg hj]
  have hR2 : Complexe.rotate_mol { cx with atoms := A1 } axis c (-s) i
      origin = some cx := by
    unfold Complexe.rotate_mol Complexe.get_atom_indexes
    rw [if_neg hA1ne, if_pos hi]
    show some _ = some cx
    rw [Option.some.injEq]
    show { cx with atoms := applyAtIdxs idxs g 0 A1 } = cx
    rw [hA2]
  rw [hR1]
  simp only [Option.some_bind]
  exact hR2

theorem flatMap_map_length {α β γ : Type} (R : List α) (P : List β)
    (h : α → β → γ) :
    (R.flatMap fun r => P.map fun p => h r p).length =
      R.length * P.length := by
  induction R with
  | nil => simp
  | cons r R ih =>
      rw [List.flatMap_cons, List.length_append, List.length_map, ih,
        List.length_cons]
      ring

/-- Inversion of a successful `_generate_conformers` run: the conformer list
is the numbered collection of (static atoms ++ shifted moving atoms), one per
(rotation, sphere point) pair, and nothing else in the complex changes. -/
theorem generate_conformers_spec (cx : Complexe) (m1 m2 : Molecule)
    (rest : List Molecule) (rotations : List RandomRotation)
    (spherePoints : List Point) (fuel : ℕ) (cx' : Complexe)
    (hmol : cx.molecules = m1 :: m2 :: rest)
    (hgen : cx.generate_conformers rotations spherePoints fuel = some cx') :
    ∃ atomLists : List (List Atom),
      seqOptions (rotations.flatMap fun r => spherePoints.map fun point =>
          shiftLoop ((centeredFirstAtoms m1).map Atom.coord) point fuel
            (rotatedSecond m2 r)) = some atomLists ∧
      cx' = { cx with conformers := mapWithIdx (fun n ats =>
          Conformer.mk (cx.name ++ "_conf" ++ toString n)
            (centeredFirstAtoms m1 ++ ats) cx.charge cx.mult) 0 atomLists } := by
  unfold Complexe.generate_conformers at hgen
  rw [hmol] at hgen
  simp only [Option.map_eq_some'] at hgen
  obtain ⟨atomLists, h1, h2⟩ := hgen
  rw [← hmol] at h2
  exact ⟨atomLists, h1, h2.symm⟩

/-- **C2**: a successful conformer generation on a two-molecule complex
produces exactly (number of random rotations) × (number of sphere points)
conformers; each conformer has as many atoms as the two molecules together,
starts with the static molecule's atoms in their centroid-shifted reference
positions, and keeps the moving molecule's atoms at squared pairwise distance
strictly greater than 4 (i.e. distance > 2.0 Å) from every static atom. -/
theorem c2_generate_conformers_properties (cx : Complexe) (m1 m2 : Molecule)
    (rotations : List RandomRotation) (spherePoints : List Point) (fuel : ℕ)
    (cx' : Complexe) (hmol : cx.molecules = [m1, m2])
    (hgen : cx.generate_conformers rotations spherePoints fuel = some cx') :
    cx'.conformers.length = rotations.length * spherePoints.length ∧
    ∀ conf ∈ cx'.conformers,
      conf.atoms.length = m1.n_atoms + m2.n_atoms ∧
      conf.atoms.take m1.n_atoms = centeredFirstAtoms m1 ∧
      farEnoughApart ((centeredFirstAtoms m1).map Atom.coord)
        (conf.atoms.drop m1.n_atoms) := by
  obtain ⟨atomLists, hseq, rfl⟩ :=
    generate_conformers_spec cx m1 m2 [] rotations spherePoints fuel cx'
      hmol hgen
  have hfal : (centeredFirstAtoms m1).length = m1.n_atoms :=
    List.length_map _ _
  constructor
  · rw [show ({ cx with conformers := mapWithIdx _ 0 atomLists } :
        Complexe).conformers = mapWithIdx (fun n ats =>
          Conformer.mk (cx.name ++ "_conf" ++ toString n)
            (centeredFirstAtoms m1 ++ ats) cx.charge cx.mult) 0 atomLists
        from rfl]
    rw [mapWithIdx_length, seqOptions_length _ _ hseq, flatMap_map_length]
  · intro conf hconf
    obtain ⟨k, ats, hats, rfl⟩ := mapWithIdx_mem _ 0 atomLists conf hconf
    have hsome : some ats ∈ rotations.flatMap fun r => spherePoints.map
        fun point => shiftLoop ((centeredFirstAtoms m1).map Atom.coord) point
          fuel (rotatedSecond m2 r) :=
      seqOptions_mem _ atomLists hseq ats hats
    obtain ⟨r, -, hmemr⟩ := List.mem_flatMap.mp hsome
    obtain ⟨point, -, hloop⟩ := List.mem_map.mp hmemr
    have hlen : ats.length = m2.n_atoms := by
      rw [shiftLoop_length _ _ _ _ _ hloop]
      exact List.length_map _ _
    refine ⟨?_, ?_, ?_⟩
    · show (centeredFirstAtoms m1 ++ ats).length = _
      rw [List.length_append, hfal, hlen]
    · show (centeredFirstAtoms m1 ++ ats).take m1.n_atoms = _
      rw [← hfal, List.take_left]
    · show farEnoughApart _ ((centeredFirstAtoms m1 ++ ats).drop m1.n_atoms)
      rw [← hfal, List.drop_left]
      exact shiftLoop_farEnough _ _ _ _ _ hloop

/-- **C9**: for a two-molecule complex whose molecules are nonempty and whose
centroids do not coincide, the inner 0.1 Å shift loop of
`_generate_conformers` terminates for every random rotation and every unit
sphere point: after finitely many steps the minimum pairwise (squared)
distance between the static molecule's atoms and the moving molecule's atoms
exceeds 4 (i.e. the distance exceeds 2.0 Å). -/
theorem c9_shift_loop_terminates (m1 m2 : Molecule) (r : RandomRotation)
    (point : Point) (h1 : m1.atoms ≠ []) (h2 : m2.atoms ≠ [])
    (_hcent : m1.centroid ≠ m2.centroid) (hpt : point.dot point = 1) :
    ∃ (fuel : ℕ) (res : List Atom),
      shiftLoop ((centeredFirstAtoms m1).map Atom.coord) point fuel
        (rotatedSecond m2 r) = some res ∧
      farEnoughApart ((centeredFirstAtoms m1).map Atom.coord) res := by
  have hfc : (centeredFirstAtoms m1).map Atom.coord ≠ [] := by
    intro h
    apply h1
    unfold centeredFirstAtoms at h
    simpa using h
  have hats : rotatedSecond m2 r ≠ [] := by
    intro h
    apply h2
    unfold rotatedSecond at h
    simpa using h
  obtain ⟨fuel, res, hres⟩ := shiftLoop_terminates _ point _ hfc hats hpt
  exact ⟨fuel, res, hres, shiftLoop_farEnough _ _ _ _ _ hres⟩

/-- **C10**: `_generate_conformers` first resets `self.conformers`, so its
outcome is independent of whatever conformers were stored before the call;
on success the list holds exactly (rotations × sphere points) fresh
conformers whose names restart at `_conf0` and increase by one in creation
order. -/
theorem c10_conformers_reset_and_renumbered (cx : Complexe)
    (old : List Conformer) (rotations : List RandomRotation)
    (spherePoints : List Point) (fuel : ℕ) :
    Complexe.generate_conformers { cx with conformers := old } rotations
        spherePoints fuel =
      cx.generate_conformers rotations spherePoints fuel ∧
    ∀ cx', cx.generate_conformers rotations spherePoints fuel = some cx' →
      cx'.conformers.length = rotations.length * spherePoints.length ∧
      ∀ (n : ℕ) (hn : n < cx'.conformers.length),
        (cx'.conformers.get ⟨n, hn⟩).name =
          cx.name ++ "_conf" ++ toString n := by
  constructor
  · rfl
  · intro cx' hgen
    rcases hmols : cx.molecules with _ | ⟨m1, mrest⟩
    · unfold Complexe.generate_conformers at hgen
      rw [hmols] at hgen
      cases hgen
    rcases mrest with _ | ⟨m2, rest⟩
    · unfold Complexe.generate_conformers at hgen
      rw [hmols] at hgen
      cases hgen
    obtain ⟨atomLists, hseq, rfl⟩ :=
      generate_conformers_spec cx m1 m2 rest rotations spherePoints fuel cx'
        hmols hgen
    constructor
    · rw [show ({ cx with conformers := mapWithIdx _ 0 atomLists } :
          Complexe).conformers = mapWithIdx (fun n ats =>
            Conformer.mk (cx.name ++ "_conf" ++ toString n)
              (centeredFirstAtoms m1 ++ ats) cx.charge cx.mult) 0 atomLists
          from rfl]
      rw [mapWithIdx_length, seqOptions_length _ _ hseq, flatMap_map_length]
    · intro n hn
      have hget : ({ cx with conformers := mapWithIdx _ 0 atomLists } :
          Complexe).conformers[n]? = some (({ cx with
            conformers := mapWithIdx (fun n ats =>
              Conformer.mk (cx.name ++ "_conf" ++ toString n)
                (centeredFirstAtoms m1 ++ ats) cx.charge cx.mult)
              0 atomLists } : Complexe).conformers.get ⟨n, hn⟩) :=
        List.getElem?_eq_getElem hn
      rw [mapWithIdx_getElem?] at hget
      rcases ho : atomLists[n]? with - | ats
      · rw [ho] at hget
        cases hget
      · rw [ho] at hget
        simp only [Option.map_some', Option.some.injEq] at hget
        rw [← hget, Nat.zero_add]

/-! ### Witnesses: the claim theorems applied at concrete inputs -/

/-- Witness for C1 (amended): at the cross-template acceptance instance, the
accepted dictionary does cover the active bond `(0, 1)` even though the
accepted template does not. -/
theorem c1_witness :
    scanTemplates (fun _ => 2) 4 [(0, 1), (2, 3)] [] [t1W, t2W] =
      some (t2W, [((0, 1), 1), ((2, 3), 2)]) ∧
    (0, 1) ∈ dictKeys [((0, 1), 1), ((2, 3), 2)] :=
  ⟨by decide,
    ((c1_accept_requires_accumulated_cover).1 (fun _ => 2) 4 [(0, 1), (2, 3)]
      [t1W, t2W] t2W [((0, 1), 1), ((2, 3), 2)] (by decide)).2.1 (0, 1)
      (by decide)⟩

/-- Witness for C2: a concrete two-molecule complex generates exactly
`1 × 1` conformers. -/
theorem c2_witness :
    cxG.molecules = [mG1, mG2] ∧
    cxG.generate_conformers [rotW] [ptW] 1 = some cxGconf ∧
    cxGconf.conformers.length = [rotW].length * [ptW].length := by
  have hgen : cxG.generate_conformers [rotW] [ptW] 1 = some cxGconf := by
    norm_num [Complexe.generate_conformers, cxG, cxGconf, mG1, mG2, rotW, ptW,
      centeredFirstAtoms, rotatedSecond, Molecule.centroid, Atom.translate,
      Atom.rotate, Point.neg, Point.add, Point.smul, Point.dot, Point.cross,
      Point.zero, shiftLoop, farEnoughApart, pairSqDists, Point.sqDist,
      listMin, seqOptions, mapWithIdx]
  exact ⟨rfl, hgen,
    (c2_generate_conformers_properties cxG mG1 mG2 [rotW] [ptW] 1 cxGconf rfl
      hgen).1⟩

/-- Witness for C3: a single matching template with a stored distance for the
one active bond, current distance 1.8 Å below the 4.0 Å threshold, is
accepted immediately. -/
theorem c3_witness :
    tW.isMatch = true ∧ DictWF [((0 : ℕ), (1 : ℕ))] [] ∧
    (∀ b ∈ [((0 : ℕ), (1 : ℕ))], ∃ v, tW.bondDistance b = some v) ∧
    scanTemplates (fun _ => 9 / 5) 4 [(0, 1)] [] [tW] =
      some (tW, accumulateBondDists tW [(0, 1)] []) :=
  ⟨rfl, by constructor <;> decide,
    by
      intro b hb
      rw [List.mem_singleton] at hb
      subst hb
      exact ⟨1, by decide⟩,
    (c3_threshold_skip_and_immediate_accept (fun _ => 9 / 5) 4 [(0, 1)] []
        tW [] rfl (by decide) ⟨by decide, by decide⟩
        (by
          intro b hb
          rw [List.mem_singleton] at hb
          subst hb
          exact ⟨1, by decide⟩)).2.1
      (by
        intro b hb
        norm_num)⟩

/-- Witness for C4: the precondition failures at concrete inputs. -/
theorem c4_witness :
    mkComplex [] "c" = none ∧
    cxW.get_atom_indexes 5 = none ∧
    (Complexe.mk "c" [mW1] [] 0 1 "water" []).translate_mol ⟨1, 0, 0⟩ 0 =
      none :=
  ⟨c4_precondition_violations_fail.1 "c",
    c4_precondition_violations_fail.2.1 cxW 5 (by decide),
    (c4_precondition_violations_fail.2.2 (Complexe.mk "c" [mW1] [] 0 1
      "water" []) ⟨1, 0, 0⟩ ⟨0, 0, 1⟩ ⟨0, 0, 0⟩ 1 0 0 rfl).1⟩

/-- Witness for C5: the two-molecule complex `cxW`; atom index 0 is covered
by some molecule's range. -/
theorem c5_witness :
    mkComplex [mW1, mW2] "c" = some cxW ∧
    (∃ (i : ℕ) (ri : List ℕ), cxW.get_atom_indexes i = some ri ∧ 0 ∈ ri) :=
  ⟨by decide,
    (c5_atom_index_ranges_partition [mW1, mW2] "c" cxW (by decide)).2.2.1 0
      (by decide)⟩

/-- Witness for C6: translating / rotating molecule 1 of `cxW` succeeds and
satisfies the frame conditions. -/
theorem c6_witness :
    cxW.atoms ≠ [] ∧ 1 < cxW.molecules.length ∧
    ∃ cT cR : Complexe,
      cxW.translate_mol ⟨1, 0, 0⟩ 1 = some cT ∧
      cxW.rotate_mol ⟨0, 0, 1⟩ (3 / 5) (4 / 5) 1 ⟨0, 0, 0⟩ = some cR ∧
      (∀ j : ℕ, j < cxW.firstIndex 1 ∨ cxW.firstIndex 2 ≤ j →
          cT.atoms[j]? = cxW.atoms[j]? ∧ cR.atoms[j]? = cxW.atoms[j]?) ∧
      (∀ j : ℕ, cxW.firstIndex 1 ≤ j → j < cxW.firstIndex 2 →
          cT.atoms[j]? =
            (cxW.atoms[j]?).map (fun a => a.translate ⟨1, 0, 0⟩) ∧
          cR.atoms[j]? = (cxW.atoms[j]?).map fun a =>
            ((a.translate (Point.neg ⟨0, 0, 0⟩)).rotate ⟨0, 0, 1⟩ (3 / 5)
              (4 / 5)).translate ⟨0, 0, 0⟩) :=
  ⟨by decide, by decide,
    c6_translate_rotate_mol_frame cxW ⟨1, 0, 0⟩ ⟨0, 0, 1⟩ ⟨0, 0, 0⟩ (3 / 5)
      (4 / 5) 1 (by decide) (by decide)⟩

/-- Witness for C7: the rotation round trip on `cxW` about the unit z-axis
with `(cos, sin) = (3/5, 4/5)` and origin `(1, 0, 0)`. -/
theorem c7_witness :
    cxW.atoms ≠ [] ∧ 1 < cxW.molecules.length ∧
    Point.dot ⟨0, 0, 1⟩ ⟨0, 0, 1⟩ = 1 ∧
    ((3 : ℚ) / 5) ^ 2 + ((4 : ℚ) / 5) ^ 2 = 1 ∧
    (cxW.rotate_mol ⟨0, 0, 1⟩ (3 / 5) (4 / 5) 1 ⟨1, 0, 0⟩).bind
      (fun c1 => c1.rotate_mol ⟨0, 0, 1⟩ (3 / 5) (-(4 / 5)) 1 ⟨1, 0, 0⟩) =
        some cxW :=
  ⟨by decide, by decide, by norm_num [Point.dot], by norm_num,
    c7_rotate_mol_roundtrip cxW ⟨0, 0, 1⟩ ⟨1, 0, 0⟩ (3 / 5) (4 / 5) 1
      (by decide) (by decide) (by norm_num [Point.dot]) (by norm_num)⟩

/-- Witness for C9: the shift loop terminates on the concrete molecules
`mW1`, `mW2` (distinct centroids) along the unit point `ptW`. -/
theorem c9_witness :
    mW1.atoms ≠ [] ∧ mW2.atoms ≠ [] ∧ mW1.centroid ≠ mW2.centroid ∧
    ptW.dot ptW = 1 ∧
    ∃ (fuel : ℕ) (res : List Atom),
      shiftLoop ((centeredFirstAtoms mW1).map Atom.coord) ptW fuel
        (rotatedSecond mW2 rotW) = some res ∧
      farEnoughApart ((centeredFirstAtoms mW1).map Atom.coord) res :=
  ⟨by decide, by decide,
    by norm_num [Molecule.centroid, mW1, mW2, atomW1, atomW2, Point.smul,
      Point.add, Point.zero, Point.ext_iff],
    by norm_num [ptW, Point.dot],
    c9_shift_loop_terminates mW1 mW2 rotW ptW (by decide) (by decide)
      (by norm_num [Molecule.centroid, mW1, mW2, atomW1, atomW2, Point.smul,
        Point.add, Point.zero, Point.ext_iff])
      (by norm_num [ptW, Point.dot])⟩

/-- Witness for C10: on the concrete run, the single conformer produced is
named `c_conf0`. -/
theorem c10_witness :
    cxG.generate_conformers [rotW] [ptW] 1 = some cxGconf ∧
    (cxGconf.conformers.get ⟨0, by decide⟩).name =
      cxG.name ++ "_conf" ++ toString 0 := by
  have hgen : cxG.generate_conformers [rotW] [ptW] 1 = some cxGconf := by
    norm_num [Complexe.generate_conformers, cxG, cxGconf, mG1, mG2, rotW, ptW,
      centeredFirstAtoms, rotatedSecond, Molecule.centroid, Atom.translate,
      Atom.rotate, Point.neg, Point.add, Point.smul, Point.dot, Point.cross,
      Point.zero, shiftLoop, farEnoughApart, pairSqDists, Point.sqDist,
      listMin, seqOptions, mapWithIdx]
  exact ⟨hgen,
    ((c10_conformers_reset_and_renumbered cxG [] [rotW] [ptW] 1).2 cxGconf
      hgen).2 0 (by decide)⟩

end AutodE
